import Mathlib

/-! The pugz block finder: verification development.

Shallow embedding of

* `src/common/common_defs.h`: the byte-swap helpers `bswap16`, `bswap32`, `bswap64`
  and the `be*_bswap` aliases;
* `src/programs/blockfinder.cpp`: `stat_file`, the scan loop of `benchmarkBlockFinder`,
  `benchmarkBlockFinder` itself and `tmain`.

Machine integers are natural numbers with explicit reduction modulo `2 ^ w`
(`u16`, `u32`, `u64`, and `size_t`, which is 64 bits wide); `int` return codes are
integers.  Clock readings and the floating-point figures printed by the harness are
not part of the model.
-/

namespace Pugz

/-! ## `common_defs.h`: endianness helpers -/

/-- `bswap16(u16 n)`: `return (n << 8) | (n >> 8);`.  The operand is promoted to `int`,
where `n << 8` cannot overflow; the conversion of the result to `u16` is the final
reduction modulo `2 ^ 16`. -/
def bswap16 (n : Nat) : Nat :=
  ((n <<< 8) ||| (n >>> 8)) % 2 ^ 16

/-- `bswap32(u32 n)`: every subexpression has type `u32`, so left shifts are reduced
modulo `2 ^ 32`. -/
def bswap32 (n : Nat) : Nat :=
  ((n &&& 0x000000FF) <<< 24) % 2 ^ 32 ||| ((n &&& 0x0000FF00) <<< 8) % 2 ^ 32
    ||| ((n &&& 0x00FF0000) >>> 8) ||| ((n &&& 0xFF000000) >>> 24)

/-- `bswap64(u64 n)`: every subexpression has type `u64`, so left shifts are reduced
modulo `2 ^ 64`. -/
def bswap64 (n : Nat) : Nat :=
  ((n &&& 0x00000000000000FF) <<< 56) % 2 ^ 64 ||| ((n &&& 0x000000000000FF00) <<< 40) % 2 ^ 64
    ||| ((n &&& 0x0000000000FF0000) <<< 24) % 2 ^ 64
    ||| ((n &&& 0x00000000FF000000) <<< 8) % 2 ^ 64 ||| ((n &&& 0x000000FF00000000) >>> 8)
    ||| ((n &&& 0x0000FF0000000000) >>> 24)
    ||| ((n &&& 0x00FF000000000000) >>> 40) ||| ((n &&& 0xFF00000000000000) >>> 56)

/-- `#define le16_bswap(n) (n)`. -/
def le16_bswap (n : Nat) : Nat := n

/-- `#define le32_bswap(n) (n)`. -/
def le32_bswap (n : Nat) : Nat := n

/-- `#define le64_bswap(n) (n)`. -/
def le64_bswap (n : Nat) : Nat := n

/-- `#define be16_bswap(n) bswap16(n)`. -/
def be16_bswap (n : Nat) : Nat := bswap16 n

/-- `#define be32_bswap(n) bswap32(n)`. -/
def be32_bswap (n : Nat) : Nat := bswap32 n

/-- `#define be64_bswap(n) bswap64(n)`. -/
def be64_bswap (n : Nat) : Nat := bswap64 n

/-- Byte `i` of `x`, counted from the least significant byte: `(x >> 8*i) & 0xFF`. -/
def byteAt (i x : Nat) : Nat := (x >>> (8 * i)) &&& 0xFF

/-! ## `blockfinder.cpp`: the scan loop of `benchmarkBlockFinder`

`deflate_thread.sync` is declared in `lib/gzip_decompress.hpp`; the loop is modelled for
an arbitrary `sync : Nat → Nat`, whose result is read as a `size_t`. -/

/-- State of the scan loop: the loop variable `bitPosition`, the vector `blockOffsets`
(in `push_back` order), the trace `calls` of the `sync` calls made so far, each as
(position supplied, value of `newBitPosition`), and whether the loop has been left. -/
structure ScanState where
  bitPosition : Nat
  blockOffsets : List Nat
  calls : List (Nat × Nat)
  halted : Bool
deriving DecidableEq

/-- State on entry to the loop: `size_t bitPosition = 0`, `blockOffsets` empty. -/
def ScanState.init : ScanState :=
  { bitPosition := 0, blockOffsets := [], calls := [], halted := false }

/-- One iteration of
`for ( size_t bitPosition = 0; bitPosition < in.mmap_size * 8; ++bitPosition )`:
the loop test (with the `size_t` product `in.mmap_size * 8`), the call of `sync`, the
`break` when the result equals the position supplied, and otherwise
`bitPosition = newBitPosition; blockOffsets.push_back( bitPosition );` followed by the
`++bitPosition` of the loop header. -/
def loopStep (sync : Nat → Nat) (mmap_size : Nat) (s : ScanState) : ScanState :=
  if s.halted then s
  else if s.bitPosition < mmap_size * 8 % 2 ^ 64 then
    let newBitPosition := sync s.bitPosition % 2 ^ 64
    if s.bitPosition = newBitPosition then
      { s with calls := s.calls ++ [(s.bitPosition, newBitPosition)], halted := true }
    else
      { bitPosition := (newBitPosition + 1) % 2 ^ 64
        blockOffsets := s.blockOffsets ++ [newBitPosition]
        calls := s.calls ++ [(s.bitPosition, newBitPosition)]
        halted := false }
  else { s with halted := true }

/-- The loop state after `n` iterations (a state that has left the loop stays as it is). -/
def loopRun (sync : Nat → Nat) (mmap_size : Nat) : Nat → ScanState
  | 0 => ScanState.init
  | n + 1 => loopStep sync mmap_size (loopRun sync mmap_size n)

/-- The whole loop, run for at most `fuel` iterations: the final state when the loop has
been left by then, `none` otherwise. -/
def scanLoop (sync : Nat → Nat) (mmap_size fuel : Nat) : Option ScanState :=
  if (loopRun sync mmap_size fuel).halted then some (loopRun sync mmap_size fuel) else none

/-- Modelled from the spec: `DeflateThreadRandomAccess::sync` (declared in
`lib/gzip_decompress.hpp`) by the contract of spec §6 over a set `V` of verified
block-start bit offsets: the least element of `V` at or after `p`, and `p` itself when
there is none. -/
def syncOf (V : Finset Nat) (p : Nat) : Nat :=
  if h : (V.filter (fun v => p ≤ v)).Nonempty then (V.filter (fun v => p ≤ v)).min' h else p

/-! ## `blockfinder.cpp`: `stat_file`, `benchmarkBlockFinder`, `tmain` -/

/-- What the helpers of `prog_util` and the operating system answer for one path: the
return values of `xopen_for_read`, `tfstat` and `map_file_contents`, the fields
`in.is_standard_stream` and `in.mmap_size`, `S_ISREG(stbuf.st_mode)`, `stbuf.st_nlink`,
`stbuf.st_size`, and the `sync` of the `DeflateThreadRandomAccess` built over the mapped
bytes. -/
structure FileOutcome where
  xopen_for_read : Int
  is_standard_stream : Bool
  tfstat : Int
  S_ISREG : Bool
  st_nlink : Nat
  st_size : Nat
  map_file_contents : Int
  mmap_size : Nat
  sync : Nat → Nat

/-- `stat_file(in, stbuf, allow_hard_links)`; the `msg` diagnostics are not modelled. -/
def stat_file (f : FileOutcome) (allow_hard_links : Bool) : Int :=
  if f.tfstat ≠ 0 then -1
  else if !f.S_ISREG && !f.is_standard_stream then -2
  else if decide (f.st_nlink > 1) && !allow_hard_links then -2
  else 0

/-- Observable actions of the harness: entering `benchmarkBlockFinder`, opening the file,
one call of `sync`, the "Found N blocks" report with `N = blockOffsets.size()`, and
`xclose`. -/
inductive Event where
  | benchmarkBlockFinder (path : String) (warmUp : Bool)
  | xopen_for_read (path : String)
  | sync (bitPosition : Nat)
  | report (blocks : Nat)
  | xclose (path : String)
deriving DecidableEq

/-- `benchmarkBlockFinder(path, warmUp)`: the value returned together with the actions
performed; `none` when the scan loop has not been left within `fuel` iterations. -/
def benchmarkBlockFinder (os : String → FileOutcome) (fuel : Nat) (path : String)
    (warmUp : Bool) : Option (Int × List Event) :=
  let entry := [Event.benchmarkBlockFinder path warmUp, Event.xopen_for_read path]
  let ret := (os path).xopen_for_read
  if ret ≠ 0 then some (ret, entry)
  else
    let ret := stat_file (os path) true
    if ret ≠ 0 then some (ret, entry)
    else
      let ret := (os path).map_file_contents
      if ret ≠ 0 then some (ret, entry ++ [Event.xclose path])
      else
        match scanLoop (os path).sync (os path).mmap_size fuel with
        | none => none
        | some s =>
          let scanned := entry ++ s.calls.map (fun c => Event.sync c.1)
          if warmUp then some (0, scanned)
          else some (0, scanned ++ [Event.report s.blockOffsets.length, Event.xclose path])

/-- The body of `for ( int i = 0; i < std::stoi( argv[2] ); ++i )`, run `count` times:
each run calls `benchmarkBlockFinder( argv[1] )` and drops the value it returns. -/
def repeatRuns (os : String → FileOutcome) (fuel : Nat) (path : String) :
    Nat → Option (List Event)
  | 0 => some []
  | k + 1 =>
    match benchmarkBlockFinder os fuel path false with
    | none => none
    | some r =>
      match repeatRuns os fuel path k with
      | none => none
      | some rest => some (r.2 ++ rest)

/-- `tmain(argc, argv)` with `argc = argv.length`: the exit status together with the
actions performed.  `stoi` stands for `std::stoi` (`none` when it throws); the result is
`none` when `std::stoi` throws or a scan loop has not been left within `fuel`
iterations. -/
def tmain (os : String → FileOutcome) (stoi : String → Option Int) (fuel : Nat)
    (argv : List String) : Option (Int × List Event) :=
  if argv.length < 2 then some (1, [])
  else if argv.length ≥ 3 then
    match benchmarkBlockFinder os fuel (argv.getD 1 "") true with
    | none => none
    | some warm =>
      match stoi (argv.getD 2 "") with
      | none => none
      | some count =>
        match repeatRuns os fuel (argv.getD 1 "") count.toNat with
        | none => none
        | some runs => some (0, warm.2 ++ runs)
  else benchmarkBlockFinder os fuel (argv.getD 1 "") false

/-- A path that cannot be opened: `xopen_for_read` returns `-1`. -/
def missingFile : FileOutcome :=
  { xopen_for_read := -1, is_standard_stream := false, tfstat := -1, S_ISREG := false,
    st_nlink := 0, st_size := 0, map_file_contents := -1, mmap_size := 0, sync := fun p => p }

/-- A regular file of two bytes with three hard links that opens, stats and maps without
error. -/
def linkedFile : FileOutcome :=
  { xopen_for_read := 0, is_standard_stream := false, tfstat := 0, S_ISREG := true,
    st_nlink := 3, st_size := 2, map_file_contents := 0, mmap_size := 2, sync := fun p => p }

/-! ## Byte-swap helpers: lemmas -/

theorem and_mask_shift (n w k : Nat) :
    n &&& ((2 ^ w - 1) <<< k) = (n / 2 ^ k % 2 ^ w) * 2 ^ k := by
  apply Nat.eq_of_testBit_eq
  intro i
  rw [Nat.mul_comm, Nat.testBit_mul_pow_two, Nat.testBit_and, Nat.testBit_shiftLeft,
    Nat.testBit_two_pow_sub_one, Nat.testBit_mod_two_pow, ← Nat.shiftRight_eq_div_pow,
    Nat.testBit_shiftRight]
  by_cases h : i ≥ k
  · have : k + (i - k) = i := by omega
    simp [h, this, Bool.and_comm]
  · simp [h]

theorem or_eq_add_of_lt (a b c i : Nat) (ha : a = c * 2 ^ i) (hb : b < 2 ^ i) :
    a ||| b = a + b := by
  subst ha
  rw [Nat.mul_comm, ← Nat.mul_add_lt_is_or hb]

theorem byteAt_eq (i x : Nat) : byteAt i x = x / 2 ^ (8 * i) % 256 := by
  unfold byteAt
  rw [Nat.shiftRight_eq_div_pow]
  exact Nat.and_pow_two_sub_one_eq_mod _ 8

theorem bswap16_eq (n : Nat) (hn : n < 2 ^ 16) : bswap16 n = n % 256 * 256 + n / 256 := by
  unfold bswap16
  rw [Nat.shiftLeft_eq, Nat.shiftRight_eq_div_pow,
    or_eq_add_of_lt (n * 2 ^ 8) (n / 2 ^ 8) n 8 rfl (by omega)]
  omega

theorem bswap32_eq (n : Nat) :
    bswap32 n = n % 256 * 2 ^ 24 + n / 2 ^ 8 % 256 * 2 ^ 16 + n / 2 ^ 16 % 256 * 2 ^ 8
      + n / 2 ^ 24 % 256 := by
  unfold bswap32
  have h0 : n &&& 0x000000FF = n / 2 ^ 0 % 2 ^ 8 * 2 ^ 0 := and_mask_shift n 8 0
  have h1 : n &&& 0x0000FF00 = n / 2 ^ 8 % 2 ^ 8 * 2 ^ 8 := and_mask_shift n 8 8
  have h2 : n &&& 0x00FF0000 = n / 2 ^ 16 % 2 ^ 8 * 2 ^ 16 := and_mask_shift n 8 16
  have h3 : n &&& 0xFF000000 = n / 2 ^ 24 % 2 ^ 8 * 2 ^ 24 := and_mask_shift n 8 24
  rw [h0, h1, h2, h3]
  simp only [Nat.shiftLeft_eq, Nat.shiftRight_eq_div_pow]
  have e0 : n / 2 ^ 0 % 2 ^ 8 * 2 ^ 0 * 2 ^ 24 % 2 ^ 32 = n % 256 * 2 ^ 24 := by omega
  have e1 : n / 2 ^ 8 % 2 ^ 8 * 2 ^ 8 * 2 ^ 8 % 2 ^ 32 = n / 2 ^ 8 % 256 * 2 ^ 16 := by omega
  have e2 : n / 2 ^ 16 % 2 ^ 8 * 2 ^ 16 / 2 ^ 8 = n / 2 ^ 16 % 256 * 2 ^ 8 := by omega
  have e3 : n / 2 ^ 24 % 2 ^ 8 * 2 ^ 24 / 2 ^ 24 = n / 2 ^ 24 % 256 := by omega
  rw [e0, e1, e2, e3]
  rw [or_eq_add_of_lt _ (n / 2 ^ 8 % 256 * 2 ^ 16) (n % 256) 24 rfl (by omega)]
  rw [or_eq_add_of_lt _ (n / 2 ^ 16 % 256 * 2 ^ 8) (n % 256 * 2 ^ 8 + n / 2 ^ 8 % 256) 16
    (by omega) (by omega)]
  rw [or_eq_add_of_lt _ (n / 2 ^ 24 % 256)
    (n % 256 * 2 ^ 16 + n / 2 ^ 8 % 256 * 2 ^ 8 + n / 2 ^ 16 % 256) 8 (by omega) (by omega)]

theorem bswap64_eq (n : Nat) :
    bswap64 n = n % 256 * 2 ^ 56 + n / 2 ^ 8 % 256 * 2 ^ 48 + n / 2 ^ 16 % 256 * 2 ^ 40
      + n / 2 ^ 24 % 256 * 2 ^ 32 + n / 2 ^ 32 % 256 * 2 ^ 24 + n / 2 ^ 40 % 256 * 2 ^ 16
      + n / 2 ^ 48 % 256 * 2 ^ 8 + n / 2 ^ 56 % 256 := by
  unfold bswap64
  have h0 : n &&& 0x00000000000000FF = n / 2 ^ 0 % 2 ^ 8 * 2 ^ 0 := and_mask_shift n 8 0
  have h1 : n &&& 0x000000000000FF00 = n / 2 ^ 8 % 2 ^ 8 * 2 ^ 8 := and_mask_shift n 8 8
  have h2 : n &&& 0x0000000000FF0000 = n / 2 ^ 16 % 2 ^ 8 * 2 ^ 16 := and_mask_shift n 8 16
  have h3 : n &&& 0x00000000FF000000 = n / 2 ^ 24 % 2 ^ 8 * 2 ^ 24 := and_mask_shift n 8 24
  have h4 : n &&& 0x000000FF00000000 = n / 2 ^ 32 % 2 ^ 8 * 2 ^ 32 := and_mask_shift n 8 32
  have h5 : n &&& 0x0000FF0000000000 = n / 2 ^ 40 % 2 ^ 8 * 2 ^ 40 := and_mask_shift n 8 40
  have h6 : n &&& 0x00FF000000000000 = n / 2 ^ 48 % 2 ^ 8 * 2 ^ 48 := and_mask_shift n 8 48
  have h7 : n &&& 0xFF00000000000000 = n / 2 ^ 56 % 2 ^ 8 * 2 ^ 56 := and_mask_shift n 8 56
  rw [h0, h1, h2, h3, h4, h5, h6, h7]
  simp only [Nat.shiftLeft_eq, Nat.shiftRight_eq_div_pow]
  have e0 : n / 2 ^ 0 % 2 ^ 8 * 2 ^ 0 * 2 ^ 56 % 2 ^ 64 = n % 256 * 2 ^ 56 := by omega
  have e1 : n / 2 ^ 8 % 2 ^ 8 * 2 ^ 8 * 2 ^ 40 % 2 ^ 64 = n / 2 ^ 8 % 256 * 2 ^ 48 := by omega
  have e2 : n / 2 ^ 16 % 2 ^ 8 * 2 ^ 16 * 2 ^ 24 % 2 ^ 64 = n / 2 ^ 16 % 256 * 2 ^ 40 := by omega
  have e3 : n / 2 ^ 24 % 2 ^ 8 * 2 ^ 24 * 2 ^ 8 % 2 ^ 64 = n / 2 ^ 24 % 256 * 2 ^ 32 := by omega
  have e4 : n / 2 ^ 32 % 2 ^ 8 * 2 ^ 32 / 2 ^ 8 = n / 2 ^ 32 % 256 * 2 ^ 24 := by omega
  have e5 : n / 2 ^ 40 % 2 ^ 8 * 2 ^ 40 / 2 ^ 24 = n / 2 ^ 40 % 256 * 2 ^ 16 := by omega
  have e6 : n / 2 ^ 48 % 2 ^ 8 * 2 ^ 48 / 2 ^ 40 = n / 2 ^ 48 % 256 * 2 ^ 8 := by omega
  have e7 : n / 2 ^ 56 % 2 ^ 8 * 2 ^ 56 / 2 ^ 56 = n / 2 ^ 56 % 256 := by omega
  rw [e0, e1, e2, e3, e4, e5, e6, e7]
  rw [or_eq_add_of_lt _ (n / 2 ^ 8 % 256 * 2 ^ 48) (n % 256) 56 rfl (by omega)]
  rw [or_eq_add_of_lt _ (n / 2 ^ 16 % 256 * 2 ^ 40) (n % 256 * 2 ^ 8 + n / 2 ^ 8 % 256) 48
    (by omega) (by omega)]
  rw [or_eq_add_of_lt _ (n / 2 ^ 24 % 256 * 2 ^ 32)
    (n % 256 * 2 ^ 16 + n / 2 ^ 8 % 256 * 2 ^ 8 + n / 2 ^ 16 % 256) 40 (by omega) (by omega)]
  rw [or_eq_add_of_lt _ (n / 2 ^ 32 % 256 * 2 ^ 24)
    (n % 256 * 2 ^ 24 + n / 2 ^ 8 % 256 * 2 ^ 16 + n / 2 ^ 16 % 256 * 2 ^ 8 + n / 2 ^ 24 % 256)
    32 (by omega) (by omega)]
  rw [or_eq_add_of_lt _ (n / 2 ^ 40 % 256 * 2 ^ 16)
    (n % 256 * 2 ^ 32 + n / 2 ^ 8 % 256 * 2 ^ 24 + n / 2 ^ 16 % 256 * 2 ^ 16
      + n / 2 ^ 24 % 256 * 2 ^ 8 + n / 2 ^ 32 % 256)
    24 (by omega) (by omega)]
  rw [or_eq_add_of_lt _ (n / 2 ^ 48 % 256 * 2 ^ 8)
    (n % 256 * 2 ^ 40 + n / 2 ^ 8 % 256 * 2 ^ 32 + n / 2 ^ 16 % 256 * 2 ^ 24
      + n / 2 ^ 24 % 256 * 2 ^ 16 + n / 2 ^ 32 % 256 * 2 ^ 8 + n / 2 ^ 40 % 256)
    16 (by omega) (by omega)]
  rw [or_eq_add_of_lt _ (n / 2 ^ 56 % 256)
    (n % 256 * 2 ^ 48 + n / 2 ^ 8 % 256 * 2 ^ 40 + n / 2 ^ 16 % 256 * 2 ^ 32
      + n / 2 ^ 24 % 256 * 2 ^ 24 + n / 2 ^ 32 % 256 * 2 ^ 16 + n / 2 ^ 40 % 256 * 2 ^ 8
      + n / 2 ^ 48 % 256)
    8 (by omega) (by omega)]

/-- Reading the base-256 digits of a four-digit number. -/
theorem digits4 (b0 b1 b2 b3 : Nat) (h0 : b0 < 256) (h1 : b1 < 256) (h2 : b2 < 256)
    (h3 : b3 < 256) :
    (b3 * 2 ^ 24 + b2 * 2 ^ 16 + b1 * 2 ^ 8 + b0) / 2 ^ (8 * 0) % 256 = b0 ∧
    (b3 * 2 ^ 24 + b2 * 2 ^ 16 + b1 * 2 ^ 8 + b0) / 2 ^ (8 * 1) % 256 = b1 ∧
    (b3 * 2 ^ 24 + b2 * 2 ^ 16 + b1 * 2 ^ 8 + b0) / 2 ^ (8 * 2) % 256 = b2 ∧
    (b3 * 2 ^ 24 + b2 * 2 ^ 16 + b1 * 2 ^ 8 + b0) / 2 ^ (8 * 3) % 256 = b3 := by
  refine ⟨?_, ?_, ?_, ?_⟩ <;> omega

/-- Reading the base-256 digits of an eight-digit number. -/
theorem digits8 (b0 b1 b2 b3 b4 b5 b6 b7 : Nat) (h0 : b0 < 256) (h1 : b1 < 256) (h2 : b2 < 256)
    (h3 : b3 < 256) (h4 : b4 < 256) (h5 : b5 < 256) (h6 : b6 < 256) (h7 : b7 < 256)
    (x : Nat) (hx : x = b7 * 2 ^ 56 + b6 * 2 ^ 48 + b5 * 2 ^ 40 + b4 * 2 ^ 32 + b3 * 2 ^ 24
      + b2 * 2 ^ 16 + b1 * 2 ^ 8 + b0) :
    x / 2 ^ (8 * 0) % 256 = b0 ∧ x / 2 ^ (8 * 1) % 256 = b1 ∧ x / 2 ^ (8 * 2) % 256 = b2 ∧
    x / 2 ^ (8 * 3) % 256 = b3 ∧ x / 2 ^ (8 * 4) % 256 = b4 ∧ x / 2 ^ (8 * 5) % 256 = b5 ∧
    x / 2 ^ (8 * 6) % 256 = b6 ∧ x / 2 ^ (8 * 7) % 256 = b7 := by
  subst hx
  refine ⟨?_, ?_, ?_, ?_, ?_, ?_, ?_, ?_⟩ <;> omega

/-- Reading the base-256 digits of a two-digit number. -/
theorem digits2 (b0 b1 : Nat) (h0 : b0 < 256) (h1 : b1 < 256) :
    (b1 * 256 + b0) / 2 ^ (8 * 0) % 256 = b0 ∧ (b1 * 256 + b0) / 2 ^ (8 * 1) % 256 = b1 := by
  refine ⟨?_, ?_⟩ <;> omega

theorem bswap16_byte (n i : Nat) (hn : n < 2 ^ 16) (hi : i < 2) :
    byteAt i (bswap16 n) = byteAt (1 - i) n := by
  rw [byteAt_eq, byteAt_eq, bswap16_eq n hn]
  obtain ⟨d0, d1⟩ := digits2 (n / 256) (n % 256) (by omega) (Nat.mod_lt _ (by norm_num))
  interval_cases i
  · rw [d0]
    show n / 256 = n / 2 ^ (8 * 1) % 256
    simp only [Nat.reduceMul, Nat.reducePow]
    omega
  · rw [d1]
    simp

theorem bswap32_byte (n i : Nat) (hi : i < 4) :
    byteAt i (bswap32 n) = byteAt (3 - i) n := by
  rw [byteAt_eq, byteAt_eq, bswap32_eq n]
  obtain ⟨d0, d1, d2, d3⟩ := digits4 (n / 2 ^ 24 % 256) (n / 2 ^ 16 % 256) (n / 2 ^ 8 % 256)
    (n % 256) (Nat.mod_lt _ (by norm_num)) (Nat.mod_lt _ (by norm_num))
    (Nat.mod_lt _ (by norm_num)) (Nat.mod_lt _ (by norm_num))
  interval_cases i
  · rw [d0]
  · rw [d1]
  · rw [d2]
  · rw [d3]; simp

theorem bswap64_byte (n i : Nat) (hi : i < 8) :
    byteAt i (bswap64 n) = byteAt (7 - i) n := by
  rw [byteAt_eq, byteAt_eq]
  obtain ⟨d0, d1, d2, d3, d4, d5, d6, d7⟩ := digits8 (n / 2 ^ 56 % 256) (n / 2 ^ 48 % 256)
    (n / 2 ^ 40 % 256) (n / 2 ^ 32 % 256) (n / 2 ^ 24 % 256) (n / 2 ^ 16 % 256)
    (n / 2 ^ 8 % 256) (n % 256) (Nat.mod_lt _ (by norm_num)) (Nat.mod_lt _ (by norm_num))
    (Nat.mod_lt _ (by norm_num)) (Nat.mod_lt _ (by norm_num)) (Nat.mod_lt _ (by norm_num))
    (Nat.mod_lt _ (by norm_num)) (Nat.mod_lt _ (by norm_num)) (Nat.mod_lt _ (by norm_num))
    (bswap64 n) (bswap64_eq n)
  interval_cases i
  · rw [d0]
  · rw [d1]
  · rw [d2]
  · rw [d3]
  · rw [d4]
  · rw [d5]
  · rw [d6]
  · rw [d7]; simp

theorem bswap16_invol (n : Nat) (hn : n < 2 ^ 16) : bswap16 (bswap16 n) = n := by
  rw [bswap16_eq _ (by rw [bswap16_eq n hn]; omega), bswap16_eq n hn]
  omega

theorem bswap32_invol (n : Nat) (hn : n < 2 ^ 32) : bswap32 (bswap32 n) = n := by
  obtain ⟨d0, d1, d2, d3⟩ := digits4 (n / 2 ^ 24 % 256) (n / 2 ^ 16 % 256) (n / 2 ^ 8 % 256)
    (n % 256) (Nat.mod_lt _ (by norm_num)) (Nat.mod_lt _ (by norm_num))
    (Nat.mod_lt _ (by norm_num)) (Nat.mod_lt _ (by norm_num))
  rw [← bswap32_eq n] at d0 d1 d2 d3
  rw [bswap32_eq (bswap32 n)]
  simp only [Nat.mul_zero, Nat.pow_zero, Nat.div_one, Nat.reduceMul] at d0 d1 d2 d3
  rw [d0, d1, d2, d3]
  omega

theorem bswap64_invol (n : Nat) (hn : n < 2 ^ 64) : bswap64 (bswap64 n) = n := by
  obtain ⟨d0, d1, d2, d3, d4, d5, d6, d7⟩ := digits8 (n / 2 ^ 56 % 256) (n / 2 ^ 48 % 256)
    (n / 2 ^ 40 % 256) (n / 2 ^ 32 % 256) (n / 2 ^ 24 % 256) (n / 2 ^ 16 % 256)
    (n / 2 ^ 8 % 256) (n % 256) (Nat.mod_lt _ (by norm_num)) (Nat.mod_lt _ (by norm_num))
    (Nat.mod_lt _ (by norm_num)) (Nat.mod_lt _ (by norm_num)) (Nat.mod_lt _ (by norm_num))
    (Nat.mod_lt _ (by norm_num)) (Nat.mod_lt _ (by norm_num)) (Nat.mod_lt _ (by norm_num))
    (bswap64 n) (bswap64_eq n)
  rw [bswap64_eq (bswap64 n)]
  simp only [Nat.mul_zero, Nat.pow_zero, Nat.div_one, Nat.reduceMul] at d0 d1 d2 d3 d4 d5 d6 d7
  rw [d0, d1, d2, d3, d4, d5, d6, d7]
  omega


/-! ## Scan loop: lemmas -/

theorem loopStep_of_halted (sync : Nat → Nat) (size : Nat) (s : ScanState)
    (h : s.halted = true) : loopStep sync size s = s := by
  simp [loopStep, h]

/-- The three ways one iteration can go from a state that has not halted. -/
theorem loopStep_cases (sync : Nat → Nat) (size : Nat) (s : ScanState)
    (h : s.halted = false) :
    (¬ s.bitPosition < size * 8 % 2 ^ 64 ∧ loopStep sync size s = { s with halted := true }) ∨
    (s.bitPosition < size * 8 % 2 ^ 64 ∧ s.bitPosition = sync s.bitPosition % 2 ^ 64 ∧
      loopStep sync size s =
        { s with calls := s.calls ++ [(s.bitPosition, sync s.bitPosition % 2 ^ 64)],
                 halted := true }) ∨
    (s.bitPosition < size * 8 % 2 ^ 64 ∧ s.bitPosition ≠ sync s.bitPosition % 2 ^ 64 ∧
      loopStep sync size s =
        { bitPosition := (sync s.bitPosition % 2 ^ 64 + 1) % 2 ^ 64
          blockOffsets := s.blockOffsets ++ [sync s.bitPosition % 2 ^ 64]
          calls := s.calls ++ [(s.bitPosition, sync s.bitPosition % 2 ^ 64)]
          halted := false }) := by
  unfold loopStep
  by_cases h1 : s.bitPosition < size * 8 % 2 ^ 64
  · by_cases h2 : s.bitPosition = sync s.bitPosition % 2 ^ 64
    · right; left
      refine ⟨h1, h2, ?_⟩
      simp only [h, Bool.false_eq_true, if_false]
      rw [if_pos h1, if_pos h2]
    · right; right
      refine ⟨h1, h2, ?_⟩
      simp only [h, Bool.false_eq_true, if_false]
      rw [if_pos h1, if_neg h2]
  · left
    refine ⟨h1, ?_⟩
    simp only [h, Bool.false_eq_true, if_false]
    rw [if_neg h1]

theorem loopRun_succ (sync : Nat → Nat) (size n : Nat) :
    loopRun sync size (n + 1) = loopStep sync size (loopRun sync size n) := rfl

theorem loopRun_stable (sync : Nat → Nat) (size n : Nat)
    (h : (loopRun sync size n).halted = true) (m : Nat) (hm : n ≤ m) :
    loopRun sync size m = loopRun sync size n := by
  induction m with
  | zero =>
    have : n = 0 := by omega
    subst this; rfl
  | succ k ih =>
    by_cases hk : n = k + 1
    · subst hk; rfl
    · have ih' := ih (by omega)
      rw [loopRun_succ, ih', loopStep_of_halted _ _ _ h]

/-! ### Invariants for an arbitrary `sync` -/

/-- Invariant of the call trace that holds for every `sync`. -/
structure TraceInv (sync : Nat → Nat) (s : ScanState) : Prop where
  result : ∀ c ∈ s.calls, c.2 = sync c.1 % 2 ^ 64
  running : s.halted = false → ∀ c ∈ s.calls, c.1 ≠ c.2
  earlier : ∀ c ∈ s.calls.dropLast, c.1 ≠ c.2
  offsets : s.blockOffsets = (s.calls.filter (fun c => decide (c.1 ≠ c.2))).map Prod.snd
  resume : s.halted = false → ∀ c ∈ s.calls.getLast?, s.bitPosition = (c.2 + 1) % 2 ^ 64
  start : s.halted = false → s.calls = [] → s.bitPosition = 0
  first : ∀ c ∈ s.calls.head?, c.1 = 0
  chain : List.Chain' (fun c d : Nat × Nat => d.1 = (c.2 + 1) % 2 ^ 64 ∧ c.2 < 2 ^ 64) s.calls

theorem traceInv_init (sync : Nat → Nat) : TraceInv sync ScanState.init := by
  constructor <;> simp [ScanState.init]

theorem traceInv_step (sync : Nat → Nat) (size : Nat) (s : ScanState)
    (hs : TraceInv sync s) : TraceInv sync (loopStep sync size s) := by
  cases hh : s.halted with
  | true => rw [loopStep_of_halted _ _ _ hh]; exact hs
  | false =>
    have hfirst : ∀ c ∈ (s.calls ++ [(s.bitPosition, sync s.bitPosition % 2 ^ 64)]).head?,
        c.1 = 0 := by
      intro c hc
      cases hcalls : s.calls with
      | nil =>
        rw [hcalls] at hc
        simp at hc
        subst hc
        exact hs.start hh hcalls
      | cons a l =>
        rw [hcalls] at hc
        simp at hc
        subst hc
        exact hs.first _ (by simp [hcalls])
    have hchain : List.Chain' (fun c d : Nat × Nat => d.1 = (c.2 + 1) % 2 ^ 64 ∧ c.2 < 2 ^ 64)
        (s.calls ++ [(s.bitPosition, sync s.bitPosition % 2 ^ 64)]) := by
      apply List.Chain'.append hs.chain (List.chain'_singleton _)
      intro x hx y hy
      simp at hy
      subst hy
      refine ⟨hs.resume hh x hx, ?_⟩
      rw [hs.result x (List.mem_of_mem_getLast? hx)]
      exact Nat.mod_lt _ (by norm_num)
    have hres : ∀ c ∈ s.calls ++ [(s.bitPosition, sync s.bitPosition % 2 ^ 64)],
        c.2 = sync c.1 % 2 ^ 64 := by
      intro c hc
      rcases List.mem_append.1 hc with h | h
      · exact hs.result c h
      · simp at h; subst h; rfl
    rcases loopStep_cases sync size s hh with ⟨_, e⟩ | ⟨_, heq, e⟩ | ⟨_, hne, e⟩
    · rw [e]
      exact ⟨hs.result, by simp, hs.earlier, hs.offsets, by simp, by simp, hs.first, hs.chain⟩
    · rw [e]
      refine ⟨hres, by simp, ?_, ?_, by simp, by simp, hfirst, hchain⟩
      · simpa using hs.running hh
      · simp only [List.filter_append, List.map_append]
        rw [hs.offsets]
        have heq' : s.bitPosition = sync s.bitPosition % 18446744073709551616 := by
          simpa using heq
        simp [← heq']
    · rw [e]
      refine ⟨hres, ?_, ?_, ?_, ?_, by simp, hfirst, hchain⟩
      · intro _ c hc
        rcases List.mem_append.1 hc with h | h
        · exact hs.running hh c h
        · simp at h; subst h; exact hne
      · simpa using hs.running hh
      · simp only [List.filter_append, List.map_append]
        rw [hs.offsets]
        have hne' : ¬ s.bitPosition = sync s.bitPosition % 18446744073709551616 := by
          simpa using hne
        simp [hne']
      · intro _ c hc
        simp at hc
        subst hc
        rfl

theorem traceInv_loopRun (sync : Nat → Nat) (size n : Nat) :
    TraceInv sync (loopRun sync size n) := by
  induction n with
  | zero => exact traceInv_init sync
  | succ k ih => exact traceInv_step sync size _ ih

/-! ### Invariants for a `sync` that never goes backwards -/

/-- Invariant of the scan when `sync` returns positions at or after its argument and
below `2 ^ 64 - 1`. -/
structure MonoInv (size : Nat) (s : ScanState) : Prop where
  sorted : s.blockOffsets.Pairwise (· < ·)
  below : ∀ x ∈ s.blockOffsets, x < s.bitPosition
  callsLen : s.calls.length ≤ size * 8 % 2 ^ 64
  callsBelow : ∀ c ∈ s.calls, c.1 < size * 8 % 2 ^ 64
  progress : s.halted = false → s.calls.length ≤ s.bitPosition

theorem monoInv_init (size : Nat) : MonoInv size ScanState.init := by
  constructor <;> simp [ScanState.init]

theorem monoInv_step (sync : Nat → Nat) (size : Nat)
    (hsync : ∀ p, p < size * 8 % 2 ^ 64 → p ≤ sync p ∧ sync p < 2 ^ 64 - 1)
    (s : ScanState) (hs : MonoInv size s) :
    MonoInv size (loopStep sync size s) ∧
      ((loopStep sync size s).halted = false → s.bitPosition < (loopStep sync size s).bitPosition) := by
  cases hh : s.halted with
  | true =>
    rw [loopStep_of_halted _ _ _ hh]
    exact ⟨hs, by simp [hh]⟩
  | false =>
    have hprog := hs.progress hh
    rcases loopStep_cases sync size s hh with ⟨_, e⟩ | ⟨hlt, _, e⟩ | ⟨hlt, hne, e⟩
    · rw [e]
      exact ⟨⟨hs.sorted, hs.below, hs.callsLen, hs.callsBelow, by simp⟩, by simp⟩
    · rw [e]
      refine ⟨⟨hs.sorted, hs.below, ?_, ?_, by simp⟩, by simp⟩
      · simp only [List.length_append, List.length_singleton]
        omega
      · intro c hc
        rcases List.mem_append.1 hc with h | h
        · exact hs.callsBelow c h
        · simp at h; subst h; exact hlt
    · rw [e]
      obtain ⟨hle, hub⟩ := hsync _ hlt
      have hmod : sync s.bitPosition % 2 ^ 64 = sync s.bitPosition :=
        Nat.mod_eq_of_lt (by omega)
      rw [hmod] at hne ⊢
      have hmod' : (sync s.bitPosition + 1) % 2 ^ 64 = sync s.bitPosition + 1 :=
        Nat.mod_eq_of_lt (by omega)
      rw [hmod']
      have hlt' : s.bitPosition < sync s.bitPosition := by omega
      refine ⟨⟨?_, ?_, ?_, ?_, ?_⟩, ?_⟩
      · refine List.pairwise_append.2 ⟨hs.sorted, List.pairwise_singleton _ _, ?_⟩
        intro a ha b hb
        simp at hb
        subst hb
        exact lt_trans (hs.below a ha) hlt'
      · intro x hx
        rcases List.mem_append.1 hx with h | h
        · have := hs.below x h
          show x < sync s.bitPosition + 1
          omega
        · simp at h; subst h
          show sync s.bitPosition < sync s.bitPosition + 1
          omega
      · simp only [List.length_append, List.length_singleton]
        omega
      · intro c hc
        rcases List.mem_append.1 hc with h | h
        · exact hs.callsBelow c h
        · simp at h; subst h; exact hlt
      · intro _
        simp only [List.length_append, List.length_singleton]
        omega
      · intro _
        show s.bitPosition < sync s.bitPosition + 1
        omega

theorem monoInv_loopRun (sync : Nat → Nat) (size : Nat)
    (hsync : ∀ p, p < size * 8 % 2 ^ 64 → p ≤ sync p ∧ sync p < 2 ^ 64 - 1) (n : Nat) :
    MonoInv size (loopRun sync size n) ∧
      ((loopRun sync size n).halted = false → n ≤ (loopRun sync size n).bitPosition) := by
  induction n with
  | zero => exact ⟨monoInv_init size, by simp⟩
  | succ k ih =>
    obtain ⟨h1, h2⟩ := monoInv_step sync size hsync _ ih.1
    refine ⟨h1, ?_⟩
    intro hh
    have hk : (loopRun sync size k).halted = false := by
      cases hkk : (loopRun sync size k).halted with
      | false => rfl
      | true =>
        rw [loopRun_succ, loopStep_of_halted _ _ _ hkk, hkk] at hh
        exact absurd hh (by simp)
    have := ih.2 hk
    have := h2 hh
    rw [loopRun_succ]
    omega

theorem loopRun_halts (sync : Nat → Nat) (size : Nat)
    (hsync : ∀ p, p < size * 8 % 2 ^ 64 → p ≤ sync p ∧ sync p < 2 ^ 64 - 1) :
    (loopRun sync size (size * 8 % 2 ^ 64 + 1)).halted = true := by
  cases hk : (loopRun sync size (size * 8 % 2 ^ 64)).halted with
  | true => rw [loopRun_succ, loopStep_of_halted _ _ _ hk, hk]
  | false =>
    have hpos := (monoInv_loopRun sync size hsync (size * 8 % 2 ^ 64)).2 hk
    rcases loopStep_cases sync size _ hk with ⟨_, e⟩ | ⟨hlt, _, _⟩ | ⟨hlt, _, _⟩
    · rw [loopRun_succ, e]
    · omega
    · omega

theorem scanLoop_of_halted (sync : Nat → Nat) (size n fuel : Nat)
    (h : (loopRun sync size n).halted = true) (hf : n ≤ fuel) :
    scanLoop sync size fuel = some (loopRun sync size n) := by
  unfold scanLoop
  rw [loopRun_stable sync size n h fuel hf, if_pos h]

/-! ### The contract model of `sync` -/

theorem syncOf_some (V : Finset Nat) (p v : Nat) (hv : v ∈ V) (hp : p ≤ v) :
    syncOf V p ∈ V ∧ p ≤ syncOf V p ∧ syncOf V p ≤ v := by
  have hne : (V.filter (fun v => p ≤ v)).Nonempty := ⟨v, Finset.mem_filter.2 ⟨hv, hp⟩⟩
  unfold syncOf
  rw [dif_pos hne]
  have hmem := Finset.min'_mem _ hne
  rw [Finset.mem_filter] at hmem
  exact ⟨hmem.1, hmem.2, Finset.min'_le _ _ (Finset.mem_filter.2 ⟨hv, hp⟩)⟩

theorem syncOf_none (V : Finset Nat) (p : Nat) (h : ∀ v ∈ V, v < p) : syncOf V p = p := by
  unfold syncOf
  rw [dif_neg]
  rintro ⟨v, hv⟩
  rw [Finset.mem_filter] at hv
  have := h v hv.1
  omega

theorem syncOf_cases (V : Finset Nat) (p : Nat) :
    (syncOf V p = p ∧ ∀ v ∈ V, v < p) ∨
    (syncOf V p ∈ V ∧ p ≤ syncOf V p ∧ ∀ v ∈ V, p ≤ v → syncOf V p ≤ v) := by
  by_cases h : ∃ v ∈ V, p ≤ v
  · right
    obtain ⟨v, hv, hp⟩ := h
    refine ⟨(syncOf_some V p v hv hp).1, (syncOf_some V p v hv hp).2.1, ?_⟩
    intro w hw hpw
    exact (syncOf_some V p w hw hpw).2.2
  · left
    have h' : ∀ v ∈ V, v < p := by
      intro v hv
      by_contra hc
      exact h ⟨v, hv, by omega⟩
    exact ⟨syncOf_none V p h', h'⟩

theorem syncOf_mono (V : Finset Nat) (size : Nat) (hsz : size * 8 < 2 ^ 64)
    (hV : ∀ v ∈ V, v < size * 8) (p : Nat) (hp : p < size * 8 % 2 ^ 64) :
    p ≤ syncOf V p ∧ syncOf V p < 2 ^ 64 - 1 := by
  rw [Nat.mod_eq_of_lt hsz] at hp
  rcases syncOf_cases V p with ⟨e, _⟩ | ⟨hm, hle, _⟩
  · rw [e]; omega
  · have := hV _ hm
    omega

/-- Invariant of the scan over the contract model of `sync`, when `0` is not a block start
and no two block starts are adjacent. -/
structure FoundInv (V : Finset Nat) (s : ScanState) : Prop where
  mem : ∀ x ∈ s.blockOffsets, x ∈ V
  found : ∀ v ∈ V, v < s.bitPosition → v ∈ s.blockOffsets
  fresh : s.bitPosition ∉ V
  done : s.halted = true → ∀ v ∈ V, v ∈ s.blockOffsets

theorem foundInv_step (V : Finset Nat) (size : Nat) (hsz : size * 8 < 2 ^ 64)
    (hV : ∀ v ∈ V, v < size * 8) (hadj : ∀ v ∈ V, v + 1 ∉ V)
    (s : ScanState) (hs : FoundInv V s) : FoundInv V (loopStep (syncOf V) size s) := by
  cases hh : s.halted with
  | true => rw [loopStep_of_halted _ _ _ hh]; exact hs
  | false =>
    rcases loopStep_cases (syncOf V) size s hh with ⟨hge, e⟩ | ⟨hlt, heq, e⟩ | ⟨hlt, hne, e⟩
    · rw [e]
      refine ⟨hs.mem, hs.found, hs.fresh, ?_⟩
      intro _ v hv
      rw [Nat.mod_eq_of_lt hsz] at hge
      have := hV v hv
      exact hs.found v hv (by omega)
    · rw [e]
      refine ⟨hs.mem, hs.found, hs.fresh, ?_⟩
      intro _ v hv
      have hb := (syncOf_mono V size hsz hV _ hlt).2
      rw [Nat.mod_eq_of_lt (by omega)] at heq
      rcases syncOf_cases V s.bitPosition with ⟨_, hall⟩ | ⟨hm, _, _⟩
      · exact hs.found v hv (hall v hv)
      · rw [← heq] at hm
        exact absurd hm hs.fresh
    · rw [e]
      have hb := syncOf_mono V size hsz hV _ hlt
      have hmod : syncOf V s.bitPosition % 2 ^ 64 = syncOf V s.bitPosition :=
        Nat.mod_eq_of_lt (by omega)
      rw [hmod] at hne ⊢
      have hmod' : (syncOf V s.bitPosition + 1) % 2 ^ 64 = syncOf V s.bitPosition + 1 :=
        Nat.mod_eq_of_lt (by omega)
      rw [hmod']
      rcases syncOf_cases V s.bitPosition with ⟨e', _⟩ | ⟨hm, hle, hleast⟩
      · exact absurd e'.symm hne
      · refine ⟨?_, ?_, hadj _ hm, by simp⟩
        · intro x hx
          rcases List.mem_append.1 hx with h | h
          · exact hs.mem x h
          · simp at h; subst h; exact hm
        · intro v hv hvlt
          apply List.mem_append.2
          by_cases hvp : v < s.bitPosition
          · exact Or.inl (hs.found v hv hvp)
          · right
            have h1 := hleast v hv (by omega)
            have h2 : v < syncOf V s.bitPosition + 1 := hvlt
            have : v = syncOf V s.bitPosition := by omega
            simp [this]

theorem foundInv_loopRun (V : Finset Nat) (size : Nat) (hsz : size * 8 < 2 ^ 64)
    (hV : ∀ v ∈ V, v < size * 8) (h0 : 0 ∉ V) (hadj : ∀ v ∈ V, v + 1 ∉ V) (n : Nat) :
    FoundInv V (loopRun (syncOf V) size n) := by
  induction n with
  | zero => exact ⟨by simp [loopRun, ScanState.init], by simp [loopRun, ScanState.init], h0,
      by simp [loopRun, ScanState.init]⟩
  | succ k ih => exact foundInv_step V size hsz hV hadj _ ih

theorem eq_sort_of_pairwise_of_mem (V : Finset Nat) (l : List Nat)
    (hl : l.Pairwise (· < ·)) (hmem : ∀ x, x ∈ l ↔ x ∈ V) : l = V.sort (· ≤ ·) := by
  have hnd : l.Nodup := List.Sorted.nodup hl
  have hperm : l.Perm (V.sort (· ≤ ·)) := by
    rw [List.perm_ext_iff_of_nodup hnd (Finset.sort_nodup _ _)]
    intro a
    rw [hmem a, Finset.mem_sort]
  exact List.eq_of_perm_of_sorted hperm (hl.imp le_of_lt) (Finset.sort_sorted _ _)


/-! ## Harness lemmas -/

theorem stat_file_cases (f : FileOutcome) (allow : Bool) :
    (f.tfstat ≠ 0 → stat_file f allow = -1) ∧
    (f.tfstat = 0 → f.S_ISREG = false → f.is_standard_stream = false →
      stat_file f allow = -2) ∧
    (f.tfstat = 0 → (f.S_ISREG = true ∨ f.is_standard_stream = true) → f.st_nlink > 1 →
      allow = false → stat_file f allow = -2) ∧
    (f.tfstat = 0 → (f.S_ISREG = true ∨ f.is_standard_stream = true) →
      (f.st_nlink ≤ 1 ∨ allow = true) → stat_file f allow = 0) ∧
    (stat_file f allow = 0 ↔
      f.tfstat = 0 ∧ (f.S_ISREG = true ∨ f.is_standard_stream = true) ∧
        (f.st_nlink ≤ 1 ∨ allow = true)) := by
  unfold stat_file
  rcases f with ⟨xo, std, tf, reg, nl, sz, mp, ms, sy⟩
  simp only
  by_cases h1 : tf = 0 <;> cases reg <;> cases std <;> cases allow <;>
    by_cases h2 : nl > 1 <;> simp [h1, h2] <;> omega

/-- Without a repeat count `tmain` hands back what its single run returns. -/
theorem tmain_single_run (os : String → FileOutcome) (stoi : String → Option Int)
    (fuel : Nat) (prog path : String) :
    tmain os stoi fuel [prog, path] = benchmarkBlockFinder os fuel path false := by
  simp [tmain]

/-- The calls of the next loop state extend the calls made so far. -/
theorem calls_prefix_step (sync : Nat → Nat) (size : Nat) (s : ScanState) :
    s.calls <+: (loopStep sync size s).calls := by
  cases hh : s.halted with
  | true => rw [loopStep_of_halted _ _ _ hh]
  | false =>
    rcases loopStep_cases sync size s hh with ⟨_, e⟩ | ⟨_, _, e⟩ | ⟨_, _, e⟩ <;> rw [e]
    · exact List.prefix_append _ _
    · exact List.prefix_append _ _

theorem halted_of_unchanged (sync : Nat → Nat) (s : ScanState) (hs : TraceInv sync s)
    (h : ∃ c ∈ s.calls, c.1 = c.2) : s.halted = true := by
  obtain ⟨c, hc, he⟩ := h
  cases hh : s.halted with
  | true => rfl
  | false => exact absurd he (hs.running hh c hc)

/-- When the file opens, stats and maps without error and the scan loop is left in state
`s`, a run that is not a warm-up returns 0 and reports `blockOffsets.size()` blocks. -/
theorem benchmark_reports_count (os : String → FileOutcome) (fuel : Nat) (path : String)
    (s : ScanState) (hopen : (os path).xopen_for_read = 0) (hstat : stat_file (os path) true = 0)
    (hmap : (os path).map_file_contents = 0)
    (hscan : scanLoop (os path).sync (os path).mmap_size fuel = some s) :
    benchmarkBlockFinder os fuel path false =
      some (0, [Event.benchmarkBlockFinder path false, Event.xopen_for_read path]
        ++ s.calls.map (fun c => Event.sync c.1)
        ++ [Event.report s.blockOffsets.length, Event.xclose path]) := by
  simp [benchmarkBlockFinder, hopen, hstat, hmap, hscan]

/-! ## The claims -/

/-- C1, as stated, fails: with the contract model of `sync` the scan records nothing when
bit 0 is a verified start (`V = {0}`, one byte), stops before the second of two adjacent
starts (`V = {1, 2}`, one byte), and never enters the loop when `in.mmap_size * 8`
wraps to 0 (`V = {1}`, `2 ^ 61` bytes); in each case `blockOffsets` is not the sorted
list of `V` and its length is not the number of elements of `V`. -/
theorem scan_contract_offsets_counterexample :
    ((∀ v ∈ ({0} : Finset Nat), v < 8 * 1) ∧
      ∃ s, scanLoop (syncOf {0}) 1 (8 * 1 + 1) = some s ∧ s.blockOffsets = [] ∧
        s.blockOffsets ≠ Finset.sort (· ≤ ·) ({0} : Finset Nat) ∧
        s.blockOffsets.length ≠ ({0} : Finset Nat).card) ∧
    ((∀ v ∈ ({1, 2} : Finset Nat), v < 8 * 1) ∧
      ∃ s, scanLoop (syncOf {1, 2}) 1 (8 * 1 + 1) = some s ∧ s.blockOffsets = [1] ∧
        s.blockOffsets ≠ Finset.sort (· ≤ ·) ({1, 2} : Finset Nat) ∧
        s.blockOffsets.length ≠ ({1, 2} : Finset Nat).card) ∧
    ((∀ v ∈ ({1} : Finset Nat), v < 8 * 2 ^ 61) ∧
      ∃ s, scanLoop (syncOf {1}) (2 ^ 61) (8 * 2 ^ 61 + 1) = some s ∧ s.blockOffsets = [] ∧
        s.blockOffsets ≠ Finset.sort (· ≤ ·) ({1} : Finset Nat) ∧
        s.blockOffsets.length ≠ ({1} : Finset Nat).card) := by
  refine ⟨⟨by decide, ?_⟩, ⟨by decide, ?_⟩, ⟨by simp, ?_⟩⟩
  · refine ⟨loopRun (syncOf {0}) 1 1, scanLoop_of_halted _ _ 1 _ (by decide) (by norm_num),
      by decide, ?_, by decide⟩
    intro h
    have := congrArg List.length h
    rw [Finset.length_sort] at this
    revert this
    decide
  · refine ⟨loopRun (syncOf {1, 2}) 1 2, scanLoop_of_halted _ _ 2 _ (by decide) (by norm_num),
      by decide, ?_, by decide⟩
    intro h
    have := congrArg List.length h
    rw [Finset.length_sort] at this
    revert this
    decide
  · refine ⟨loopRun (syncOf {1}) (2 ^ 61) 1,
      scanLoop_of_halted _ _ 1 _ (by decide) (by norm_num), by decide, ?_, by decide⟩
    intro h
    have := congrArg List.length h
    rw [Finset.length_sort] at this
    revert this
    decide

/-- C1, amended: when the bit length `8 * size` fits a `size_t`, bit 0 is not in `V` and
no two elements of `V` are adjacent, the scan loop over the contract model of `sync`
leaves the loop (for every fuel from `8 * size + 1` on, with the same final state), and
`blockOffsets` is exactly the elements of `V` in increasing order, so the block count
that `benchmarkBlockFinder` reports is the number of elements of `V`. -/
theorem scan_contract_offsets (size : Nat) (V : Finset Nat) (hsz : 8 * size < 2 ^ 64)
    (hV : ∀ v ∈ V, v < 8 * size) (h0 : 0 ∉ V) (hadj : ∀ v ∈ V, v + 1 ∉ V) :
    ∃ s, (∀ fuel, 8 * size + 1 ≤ fuel → scanLoop (syncOf V) size fuel = some s) ∧
      s.blockOffsets = V.sort (· ≤ ·) ∧ s.blockOffsets.length = V.card ∧
      ∀ (os : String → FileOutcome) (path : String), (os path).xopen_for_read = 0 →
        stat_file (os path) true = 0 → (os path).map_file_contents = 0 →
        (os path).mmap_size = size → (os path).sync = syncOf V →
        benchmarkBlockFinder os (8 * size + 1) path false =
          some (0, [Event.benchmarkBlockFinder path false, Event.xopen_for_read path]
            ++ s.calls.map (fun c => Event.sync c.1)
            ++ [Event.report V.card, Event.xclose path]) := by
  have hsz' : size * 8 < 2 ^ 64 := by omega
  have hV' : ∀ v ∈ V, v < size * 8 := fun v hv => by have := hV v hv; omega
  have hsync := syncOf_mono V size hsz' hV'
  have hhalt := loopRun_halts (syncOf V) size hsync
  have hmono := (monoInv_loopRun (syncOf V) size hsync (size * 8 % 2 ^ 64 + 1)).1
  have hfound := foundInv_loopRun V size hsz' hV' h0 hadj (size * 8 % 2 ^ 64 + 1)
  have heq := eq_sort_of_pairwise_of_mem V _ hmono.sorted
    (fun x => ⟨hfound.mem x, hfound.done hhalt x⟩)
  have hlen : (loopRun (syncOf V) size (size * 8 % 2 ^ 64 + 1)).blockOffsets.length = V.card := by
    rw [heq, Finset.length_sort]
  have hfuel : ∀ fuel, 8 * size + 1 ≤ fuel → scanLoop (syncOf V) size fuel
      = some (loopRun (syncOf V) size (size * 8 % 2 ^ 64 + 1)) := by
    intro fuel hf
    have : size * 8 % 2 ^ 64 ≤ size * 8 := Nat.mod_le _ _
    exact scanLoop_of_halted _ _ _ _ hhalt (by omega)
  refine ⟨loopRun (syncOf V) size (size * 8 % 2 ^ 64 + 1), hfuel, heq, hlen, ?_⟩
  intro os path hopen hstat hmap hsize hsy
  rw [benchmark_reports_count os _ path _ hopen hstat hmap
    (by rw [hsize, hsy]; exact hfuel _ (le_refl _)), hlen]

/-- C1, amended, at `V = {3, 9}` in a buffer of two bytes. -/
theorem scan_contract_offsets_witness :
    8 * 2 < 2 ^ 64 ∧ (∀ v ∈ ({3, 9} : Finset Nat), v < 8 * 2) ∧ 0 ∉ ({3, 9} : Finset Nat) ∧
    (∀ v ∈ ({3, 9} : Finset Nat), v + 1 ∉ ({3, 9} : Finset Nat)) ∧
    ∃ s, (∀ fuel, 8 * 2 + 1 ≤ fuel → scanLoop (syncOf {3, 9}) 2 fuel = some s) ∧
      s.blockOffsets = Finset.sort (· ≤ ·) ({3, 9} : Finset Nat) ∧
      s.blockOffsets.length = ({3, 9} : Finset Nat).card :=
  ⟨by norm_num, by decide, by decide, by decide,
    (scan_contract_offsets 2 {3, 9} (by norm_num) (by decide) (by decide) (by decide)).imp
      fun _ h => ⟨h.1, h.2.1, h.2.2.1⟩⟩

/-- C2: for every buffer size and every `sync`, after any number of iterations: every
trace entry is a call of `sync` with its `size_t` result; every call but the last returned
something other than the position supplied, so a call whose result equals its argument
is the last one, and once it has happened the loop state never changes again (no further
call); `blockOffsets` is, in order, the results of exactly the calls whose result
differed from their argument, so the block count is the number of such calls. -/
theorem scan_stops_at_unchanged_result (sync : Nat → Nat) (size n : Nat) :
    (∀ c ∈ (loopRun sync size n).calls, c.2 = sync c.1 % 2 ^ 64) ∧
    (loopRun sync size n).calls <+: (loopRun sync size (n + 1)).calls ∧
    (∀ c ∈ (loopRun sync size n).calls.dropLast, c.1 ≠ c.2) ∧
    ((∃ c ∈ (loopRun sync size n).calls, c.1 = c.2) →
      ∀ m, n ≤ m → loopRun sync size m = loopRun sync size n) ∧
    (loopRun sync size n).blockOffsets =
      ((loopRun sync size n).calls.filter (fun c => decide (c.1 ≠ c.2))).map Prod.snd ∧
    (loopRun sync size n).blockOffsets.length =
      (loopRun sync size n).calls.countP (fun c => decide (c.1 ≠ c.2)) := by
  have hinv := traceInv_loopRun sync size n
  refine ⟨hinv.result, calls_prefix_step sync size _, hinv.earlier, ?_, hinv.offsets, ?_⟩
  · intro h m hm
    exact loopRun_stable sync size n (halted_of_unchanged sync _ hinv h) m hm
  · rw [hinv.offsets, List.length_map, List.countP_eq_length_filter]

/-- C3: for every buffer size and every `sync`, after any number of iterations: the first
call, if any, is `sync(0)`; every later call is made at `a + 1` in `size_t` arithmetic
(`(a + 1) % 2 ^ 64`, which is `a + 1` whenever `a < 2 ^ 64 - 1`), where `a` is the result
of the call just before, and never at `a` itself; and the result of every call that is
followed by another is recorded in `blockOffsets`. -/
theorem scan_resumes_one_bit_after (sync : Nat → Nat) (size n : Nat) :
    (∀ c ∈ (loopRun sync size n).calls.head?, c.1 = 0) ∧
    List.Chain' (fun c d : Nat × Nat =>
        d.1 = (c.2 + 1) % 2 ^ 64 ∧ d.1 ≠ c.2 ∧ (c.2 < 2 ^ 64 - 1 → d.1 = c.2 + 1))
      (loopRun sync size n).calls ∧
    (∀ c ∈ (loopRun sync size n).calls.dropLast, c.2 ∈ (loopRun sync size n).blockOffsets) := by
  have hinv := traceInv_loopRun sync size n
  refine ⟨hinv.first, hinv.chain.imp ?_, ?_⟩
  · rintro c d ⟨h1, h2⟩
    refine ⟨h1, ?_, ?_⟩
    · rw [h1]
      by_cases h : c.2 + 1 < 2 ^ 64
      · rw [Nat.mod_eq_of_lt h]; omega
      · have : c.2 + 1 = 2 ^ 64 := by omega
        rw [this, Nat.mod_self]
        omega
    · intro h
      rw [h1, Nat.mod_eq_of_lt (by omega)]
  · intro c hc
    rw [hinv.offsets]
    refine List.mem_map.2 ⟨c, List.mem_filter.2 ⟨List.mem_of_mem_dropLast hc, ?_⟩, rfl⟩
    simpa using hinv.earlier c hc

/-- C4: when `sync` never returns a position below the one supplied and its results stay
below `2 ^ 64 - 1` (for the positions below the loop bound, the only ones supplied),
`blockOffsets` is strictly increasing after any number of iterations, and so it is in the
final state of the loop. -/
theorem scan_offsets_strictly_increasing (sync : Nat → Nat) (size : Nat)
    (hsync : ∀ p, p < size * 8 % 2 ^ 64 → p ≤ sync p ∧ sync p < 2 ^ 64 - 1) :
    (∀ n, (loopRun sync size n).blockOffsets.Pairwise (· < ·)) ∧
    ∃ s, scanLoop sync size (8 * size + 1) = some s ∧ s.blockOffsets.Pairwise (· < ·) ∧
      s.blockOffsets.Chain' (· < ·) := by
  have hsorted := fun n => (monoInv_loopRun sync size hsync n).1.sorted
  refine ⟨hsorted, loopRun sync size (size * 8 % 2 ^ 64 + 1), ?_, hsorted _,
    List.Pairwise.chain' (hsorted _)⟩
  have : size * 8 % 2 ^ 64 ≤ size * 8 := Nat.mod_le _ _
  exact scanLoop_of_halted _ _ _ _ (loopRun_halts sync size hsync) (by omega)

/-- C4 at a `sync` that finds starts at bits 5 and 9 of a two-byte buffer. -/
theorem scan_offsets_strictly_increasing_witness :
    (∀ p, p < 2 * 8 % 2 ^ 64 →
      p ≤ (fun p => if p < 5 then 5 else if p < 9 then 9 else p) p ∧
        (fun p => if p < 5 then 5 else if p < 9 then 9 else p) p < 2 ^ 64 - 1) ∧
    ((∀ n, (loopRun (fun p => if p < 5 then 5 else if p < 9 then 9 else p) 2
        n).blockOffsets.Pairwise (· < ·)) ∧
      ∃ s, scanLoop (fun p => if p < 5 then 5 else if p < 9 then 9 else p) 2 (8 * 2 + 1)
          = some s ∧ s.blockOffsets.Pairwise (· < ·) ∧ s.blockOffsets.Chain' (· < ·)) :=
  ⟨fun p hp => by simp only; split_ifs <;> omega,
    scan_offsets_strictly_increasing (fun p => if p < 5 then 5 else if p < 9 then 9 else p) 2
      (fun p hp => by simp only; split_ifs <;> omega)⟩

/-- C5 fails on the repeat-count path: for a path that cannot be opened
(`xopen_for_read` returns `-1`), every run of `benchmarkBlockFinder` returns `-1`, the
run without a repeat count exits with `-1`, and yet `tmain` with a repeat count exits
with status 0. -/
theorem tmain_repeat_ignores_failure (fuel : Nat) :
    benchmarkBlockFinder (fun _ => missingFile) fuel "missing.gz" true
      = some (-1, [Event.benchmarkBlockFinder "missing.gz" true,
          Event.xopen_for_read "missing.gz"]) ∧
    benchmarkBlockFinder (fun _ => missingFile) fuel "missing.gz" false
      = some (-1, [Event.benchmarkBlockFinder "missing.gz" false,
          Event.xopen_for_read "missing.gz"]) ∧
    tmain (fun _ => missingFile) (fun a => if a = "1" then some 1 else none) fuel
        ["blockfinder", "missing.gz"]
      = some (-1, [Event.benchmarkBlockFinder "missing.gz" false,
          Event.xopen_for_read "missing.gz"]) ∧
    tmain (fun _ => missingFile) (fun a => if a = "1" then some 1 else none) fuel
        ["blockfinder", "missing.gz", "1"]
      = some (0, [Event.benchmarkBlockFinder "missing.gz" true,
          Event.xopen_for_read "missing.gz",
          Event.benchmarkBlockFinder "missing.gz" false,
          Event.xopen_for_read "missing.gz"]) := by
  refine ⟨rfl, rfl, rfl, rfl⟩

/-- C6: with fewer than two arguments (`argc < 2`) `tmain` returns 1 and performs no
action: `benchmarkBlockFinder` is not entered, no file is opened, `sync` is not
called. -/
theorem tmain_no_input_file (os : String → FileOutcome) (stoi : String → Option Int)
    (fuel : Nat) (argv : List String) (h : argv.length < 2) :
    tmain os stoi fuel argv = some (1, []) := by
  unfold tmain
  rw [if_pos h]

/-- C6 at the argument vector that holds the program name only. -/
theorem tmain_no_input_file_witness :
    ["blockfinder"].length < 2 ∧
    tmain (fun _ => linkedFile) (fun _ => some 1) 17 ["blockfinder"] = some (1, []) :=
  ⟨by decide, tmain_no_input_file (fun _ => linkedFile) (fun _ => some 1) 17 ["blockfinder"]
    (by decide)⟩

/-- C7: `bswap16`, `bswap32` and `bswap64` swap the bytes of their argument: for a
`W`-bit `n` and a byte index `i < W / 8`, byte `i` of the result is byte `W / 8 - 1 - i`
of `n`. -/
theorem bswap_swaps_bytes :
    (∀ n i, n < 2 ^ 16 → i < 2 → byteAt i (bswap16 n) = byteAt (1 - i) n) ∧
    (∀ n i, n < 2 ^ 32 → i < 4 → byteAt i (bswap32 n) = byteAt (3 - i) n) ∧
    (∀ n i, n < 2 ^ 64 → i < 8 → byteAt i (bswap64 n) = byteAt (7 - i) n) :=
  ⟨fun n i hn hi => bswap16_byte n i hn hi, fun n i _ hi => bswap32_byte n i hi,
    fun n i _ hi => bswap64_byte n i hi⟩

/-- C7 at `0x1234`, `0x12345678` and `0x0102030405060708`. -/
theorem bswap_swaps_bytes_witness :
    (0x1234 < 2 ^ 16 ∧ 0 < 2 ∧ byteAt 0 (bswap16 0x1234) = byteAt (1 - 0) 0x1234) ∧
    (0x12345678 < 2 ^ 32 ∧ 1 < 4 ∧ byteAt 1 (bswap32 0x12345678) = byteAt (3 - 1) 0x12345678) ∧
    (0x0102030405060708 < 2 ^ 64 ∧ 5 < 8 ∧
      byteAt 5 (bswap64 0x0102030405060708) = byteAt (7 - 5) 0x0102030405060708) :=
  ⟨⟨by norm_num, by norm_num, bswap_swaps_bytes.1 0x1234 0 (by norm_num) (by norm_num)⟩,
    ⟨by norm_num, by norm_num,
      bswap_swaps_bytes.2.1 0x12345678 1 (by norm_num) (by norm_num)⟩,
    ⟨by norm_num, by norm_num,
      bswap_swaps_bytes.2.2 0x0102030405060708 5 (by norm_num) (by norm_num)⟩⟩

/-- C8: when `sync` never returns a position below the one supplied and its results stay
below `2 ^ 64 - 1` (for the positions below the loop bound, the only ones supplied), the
scan loop is left after at most `8 * size` calls of `sync` (the same final state for
every fuel from `8 * size + 1` on), every call is made at a bit position below
`8 * size`, and for a zero-length buffer there is no call and no recorded block. -/
theorem scan_terminates (sync : Nat → Nat) (size : Nat)
    (hsync : ∀ p, p < size * 8 % 2 ^ 64 → p ≤ sync p ∧ sync p < 2 ^ 64 - 1) :
    ∃ s, (∀ fuel, 8 * size + 1 ≤ fuel → scanLoop sync size fuel = some s) ∧
      s.calls.length ≤ 8 * size ∧ (∀ c ∈ s.calls, c.1 < 8 * size) ∧
      (size = 0 → s.calls = [] ∧ s.blockOffsets = []) := by
  have hle : size * 8 % 2 ^ 64 ≤ size * 8 := Nat.mod_le _ _
  have hinv := (monoInv_loopRun sync size hsync (size * 8 % 2 ^ 64 + 1)).1
  refine ⟨loopRun sync size (size * 8 % 2 ^ 64 + 1), ?_, ?_, ?_, ?_⟩
  · intro fuel hf
    exact scanLoop_of_halted _ _ _ _ (loopRun_halts sync size hsync) (by omega)
  · have := hinv.callsLen
    omega
  · intro c hc
    have := hinv.callsBelow c hc
    omega
  · intro h0
    subst h0
    have hlen := hinv.callsLen
    have hcalls : (loopRun sync 0 (0 * 8 % 2 ^ 64 + 1)).calls = [] :=
      List.eq_nil_of_length_eq_zero (by omega)
    refine ⟨hcalls, ?_⟩
    rw [(traceInv_loopRun sync 0 _).offsets, hcalls]
    rfl

/-- C8 at a `sync` that finds starts at bits 5 and 9 of a two-byte buffer. -/
theorem scan_terminates_witness :
    (∀ p, p < 2 * 8 % 2 ^ 64 →
      p ≤ (fun p => if p < 5 then 5 else if p < 9 then 9 else p) p ∧
        (fun p => if p < 5 then 5 else if p < 9 then 9 else p) p < 2 ^ 64 - 1) ∧
    ∃ s, (∀ fuel, 8 * 2 + 1 ≤ fuel →
        scanLoop (fun p => if p < 5 then 5 else if p < 9 then 9 else p) 2 fuel = some s) ∧
      s.calls.length ≤ 8 * 2 ∧ (∀ c ∈ s.calls, c.1 < 8 * 2) ∧
      (2 = 0 → s.calls = [] ∧ s.blockOffsets = []) :=
  ⟨fun p hp => by simp only; split_ifs <;> omega,
    scan_terminates (fun p => if p < 5 then 5 else if p < 9 then 9 else p) 2
      (fun p hp => by simp only; split_ifs <;> omega)⟩

/-- C9: `stat_file` returns -1 when `tfstat` fails; otherwise -2 when the file is neither
regular nor a standard stream; otherwise -2 when `st_nlink > 1` and hard links are not
allowed; otherwise 0.  So it returns 0 exactly when `tfstat` succeeds, the file is
regular or a standard stream, and `st_nlink <= 1` or hard links are allowed; with
`allow_hard_links = true`, as `benchmarkBlockFinder` calls it, the link count plays no
part, and what `benchmarkBlockFinder` does is the same for every link count. -/
theorem stat_file_result (f : FileOutcome) (allow : Bool) :
    (f.tfstat ≠ 0 → stat_file f allow = -1) ∧
    (f.tfstat = 0 → f.S_ISREG = false → f.is_standard_stream = false →
      stat_file f allow = -2) ∧
    (f.tfstat = 0 → (f.S_ISREG = true ∨ f.is_standard_stream = true) → f.st_nlink > 1 →
      allow = false → stat_file f allow = -2) ∧
    (f.tfstat = 0 → (f.S_ISREG = true ∨ f.is_standard_stream = true) →
      (f.st_nlink ≤ 1 ∨ allow = true) → stat_file f allow = 0) ∧
    (stat_file f allow = 0 ↔
      f.tfstat = 0 ∧ (f.S_ISREG = true ∨ f.is_standard_stream = true) ∧
        (f.st_nlink ≤ 1 ∨ allow = true)) ∧
    (stat_file f true = 0 ↔
      f.tfstat = 0 ∧ (f.S_ISREG = true ∨ f.is_standard_stream = true)) ∧
    (∀ (os : String → FileOutcome) (links : String → Nat) (fuel : Nat) (path : String)
      (warmUp : Bool),
      benchmarkBlockFinder (fun q => { os q with st_nlink := links q }) fuel path warmUp
        = benchmarkBlockFinder os fuel path warmUp) := by
  obtain ⟨h1, h2, h3, h4, h5⟩ := stat_file_cases f allow
  refine ⟨h1, h2, h3, h4, h5, ?_, ?_⟩
  · rw [(stat_file_cases f true).2.2.2.2]
    simp
  · intro os links fuel path warmUp
    simp [benchmarkBlockFinder, stat_file]

/-- C9 at a regular file with three hard links: `stat_file` returns -2 when hard links
are refused and 0 when they are allowed. -/
theorem stat_file_result_witness :
    linkedFile.tfstat = 0 ∧ (linkedFile.S_ISREG = true ∨ linkedFile.is_standard_stream = true) ∧
    linkedFile.st_nlink > 1 ∧ stat_file linkedFile false = -2 ∧ stat_file linkedFile true = 0 :=
  ⟨rfl, Or.inl rfl, by decide,
    (stat_file_result linkedFile false).2.2.1 rfl (Or.inl rfl) (by decide) rfl,
    (stat_file_result linkedFile true).2.2.2.1 rfl (Or.inl rfl) (Or.inr rfl)⟩

/-- C10: each byte-swap helper is an involution on its width, and so are the
`be16_bswap`, `be32_bswap`, `be64_bswap` aliases. -/
theorem bswap_involution :
    (∀ n, n < 2 ^ 16 → bswap16 (bswap16 n) = n) ∧
    (∀ n, n < 2 ^ 32 → bswap32 (bswap32 n) = n) ∧
    (∀ n, n < 2 ^ 64 → bswap64 (bswap64 n) = n) ∧
    (∀ n, n < 2 ^ 16 → be16_bswap (be16_bswap n) = n) ∧
    (∀ n, n < 2 ^ 32 → be32_bswap (be32_bswap n) = n) ∧
    (∀ n, n < 2 ^ 64 → be64_bswap (be64_bswap n) = n) :=
  ⟨bswap16_invol, bswap32_invol, bswap64_invol, bswap16_invol, bswap32_invol, bswap64_invol⟩

/-- C10 at `0x1234`, `0x12345678` and `0x0102030405060708`. -/
theorem bswap_involution_witness :
    (0x1234 < 2 ^ 16 ∧ bswap16 (bswap16 0x1234) = 0x1234) ∧
    (0x12345678 < 2 ^ 32 ∧ bswap32 (bswap32 0x12345678) = 0x12345678) ∧
    (0x0102030405060708 < 2 ^ 64 ∧
      bswap64 (bswap64 0x0102030405060708) = 0x0102030405060708) :=
  ⟨⟨by norm_num, bswap_involution.1 0x1234 (by norm_num)⟩,
    ⟨by norm_num, bswap_involution.2.1 0x12345678 (by norm_num)⟩,
    ⟨by norm_num, bswap_involution.2.2.1 0x0102030405060708 (by norm_num)⟩⟩

end Pugz
